import Mathlib

/-!
# Verification of the orchestration server's resilience core (`src/index.js`)

Shallow embedding of the in-process infrastructure of the Express server:
the circuit breaker, the LRU cache with TTL, the retry-with-backoff
orchestrator, the priority session queue with terminal-item cleanup, and
the per-IP sliding-window rate-limit middleware.

Modelling conventions:
* JavaScript timestamps (`Date.now()`) are `Int` milliseconds passed
  explicitly to each operation.
* Mutable objects become explicit state records; a method that both
  returns a value and mutates state returns a pair.
* `Math.random` jitter and the actual `setTimeout` sleep of the retry
  loop are abstracted to a *count* of delays performed (the claims under
  study only speak about how many delays happen, never their durations).
* A JS `Map` is an association list in insertion order (the iteration
  order of a `Map`); `Map.set` on a present key updates in place keeping
  the position, on an absent key it appends at the end.
-/

namespace Orchestration

/-! ## Circuit breaker (`src/index.js` lines 134-156)

```js
const circuitBreaker = {
  failures: 0,
  lastFailure: null,
  threshold: 5,
  resetTimeout: 60000,
  isOpen() {
    if (this.failures >= this.threshold) {
      const timeSinceFailure = Date.now() - this.lastFailure;
      if (timeSinceFailure < this.resetTimeout) {
        return true;
      }
      this.failures = 0;
    }
    return false;
  },
  recordSuccess() { this.failures = 0; },
  recordFailure() { this.failures++; this.lastFailure = Date.now(); }
};
```
`lastFailure` is initially `null`; the only read of it is the subtraction
above, where JS coerces `null` to `0`, so it is modelled as `Int`
initialised to `0`. -/

structure CircuitBreaker where
  failures : Nat
  lastFailure : Int
  deriving Repr, DecidableEq

namespace CircuitBreaker

def threshold : Nat := 5

def resetTimeout : Int := 60000

def initial : CircuitBreaker := { failures := 0, lastFailure := 0 }

/-- `isOpen()` at time `now`: returns the boolean and the state after the
call (the method resets `failures` to 0 once the timeout has elapsed). -/
def isOpen (cb : CircuitBreaker) (now : Int) : Bool × CircuitBreaker :=
  if cb.failures ≥ threshold then
    if now - cb.lastFailure < resetTimeout then
      (true, cb)
    else
      (false, { cb with failures := 0 })
  else
    (false, cb)

def recordSuccess (cb : CircuitBreaker) : CircuitBreaker :=
  { cb with failures := 0 }

def recordFailure (cb : CircuitBreaker) (now : Int) : CircuitBreaker :=
  { failures := cb.failures + 1, lastFailure := now }

/-- A sequence of `recordFailure()` calls at the given times. -/
def recordFailures (cb : CircuitBreaker) (times : List Int) : CircuitBreaker :=
  times.foldl recordFailure cb

end CircuitBreaker

open CircuitBreaker in
/-- **C1.** Starting closed (`failures = 0`), five consecutive `recordFailure()`
calls (at times `t1..t5`, no intervening `recordSuccess()`) make `isOpen()`
return `true`; any check strictly less than `resetTimeout` after the last
failure returns `true` and leaves the state unchanged (so every such check
keeps returning `true`); the first check at or after `resetTimeout` since the
last failure returns `false` and resets the failure count (auto-close); and
`recordSuccess()` always resets the failure count to 0. -/
theorem circuitBreaker_trip_and_reset (lf t1 t2 t3 t4 t5 now now' : Int)
    (h1 : now - t5 < resetTimeout) (h2 : resetTimeout ≤ now' - t5) :
    isOpen (recordFailures ⟨0, lf⟩ [t1, t2, t3, t4, t5]) now
      = (true, recordFailures ⟨0, lf⟩ [t1, t2, t3, t4, t5]) ∧
    (isOpen (recordFailures ⟨0, lf⟩ [t1, t2, t3, t4, t5]) now').1 = false ∧
    (isOpen (recordFailures ⟨0, lf⟩ [t1, t2, t3, t4, t5]) now').2.failures = 0 ∧
    ∀ cb : CircuitBreaker, (recordSuccess cb).failures = 0 := by
  have hs : recordFailures ⟨0, lf⟩ [t1, t2, t3, t4, t5]
      = ({ failures := 5, lastFailure := t5 } : CircuitBreaker) := rfl
  rw [hs]
  have hc : ¬ (now' - t5 < (60000 : Int)) := by
    simp only [resetTimeout] at h2; omega
  refine ⟨?_, ?_, ?_, fun cb => rfl⟩
  · simp [isOpen, threshold, h1]
  · simp [isOpen, threshold, resetTimeout, hc]
  · simp [isOpen, threshold, resetTimeout, hc]

/-- Witness for `circuitBreaker_trip_and_reset` at concrete times. -/
theorem circuitBreaker_trip_and_reset_witness :
    CircuitBreaker.isOpen
        (CircuitBreaker.recordFailures ⟨0, 0⟩ [1, 2, 3, 4, 5]) 100
      = (true, CircuitBreaker.recordFailures ⟨0, 0⟩ [1, 2, 3, 4, 5]) ∧
    (CircuitBreaker.isOpen
        (CircuitBreaker.recordFailures ⟨0, 0⟩ [1, 2, 3, 4, 5]) 60005).1 = false ∧
    (CircuitBreaker.isOpen
        (CircuitBreaker.recordFailures ⟨0, 0⟩ [1, 2, 3, 4, 5]) 60005).2.failures = 0 ∧
    ∀ cb : CircuitBreaker, (CircuitBreaker.recordSuccess cb).failures = 0 :=
  circuitBreaker_trip_and_reset 0 1 2 3 4 5 100 60005 (by decide) (by decide)

/-- **C9 counterexample.** The claim "`isOpen()` leaves the failure count and
last-failure timestamp unchanged" is false: at state
`{failures := 5, lastFailure := 0}` a check at time 60000 (the reset timeout
having elapsed) sets `failures` back to 0. -/
theorem circuitBreaker_isOpen_not_pure :
    ¬ ∀ (cb : CircuitBreaker) (now : Int),
        (CircuitBreaker.isOpen cb now).2 = cb := by
  intro h
  exact absurd (h ⟨5, 0⟩ 60000) (by decide)

open CircuitBreaker in
/-- **C9 (amended).** The circuit state is mutated only by `recordSuccess`,
`recordFailure`, and — in exactly one case — `isOpen` itself: when the failure
count has reached the threshold and `resetTimeout` has elapsed since the last
failure, `isOpen` returns `false` and resets the failure count to 0 (the
auto-close); in every other case `isOpen` leaves the state unchanged. -/
theorem circuitBreaker_isOpen_frame (cb : CircuitBreaker) (now : Int) :
    ((isOpen cb now).2 = cb ∧
      ¬(threshold ≤ cb.failures ∧ resetTimeout ≤ now - cb.lastFailure)) ∨
    ((isOpen cb now).2 = { cb with failures := 0 } ∧
      (isOpen cb now).1 = false ∧
      threshold ≤ cb.failures ∧ resetTimeout ≤ now - cb.lastFailure) := by
  unfold isOpen
  split_ifs with hth htime
  · exact Or.inl ⟨rfl, by omega⟩
  · exact Or.inr ⟨rfl, rfl, hth, by omega⟩
  · exact Or.inl ⟨rfl, by omega⟩

/-! ## LRU cache with TTL (`src/index.js` lines 31-56)

```js
class LRUCache {
  constructor(maxSize = 100, defaultTTL = 10000) {
    this.cache = new Map(); this.maxSize = maxSize; this.defaultTTL = defaultTTL;
  }
  get(key) {
    const item = this.cache.get(key);
    if (!item) return null;
    if (Date.now() > item.expires) { this.cache.delete(key); return null; }
    this.cache.delete(key);
    this.cache.set(key, item);
    return item.value;
  }
  set(key, value, ttl = this.defaultTTL) {
    if (this.cache.size >= this.maxSize && !this.cache.has(key)) {
      const firstKey = this.cache.keys().next().value;
      this.cache.delete(firstKey);
    }
    this.cache.set(key, { value, expires: Date.now() + ttl });
  }
  invalidate(pattern) { for (const key of this.cache.keys()) { if (key.includes(pattern)) this.cache.delete(key); } }
  clear() { this.cache.clear(); }
  stats() { return { size: this.cache.size, maxSize: this.maxSize }; }
}
```
The `Map` is an association list in insertion order. -/

structure CacheEntry (α : Type) where
  value : α
  expires : Int
  deriving Repr, DecidableEq

/-- `JsMap α` models a JS `Map` from string keys to cache entries: a list of
key/entry pairs in insertion order. -/
abbrev JsMap (α : Type) := List (String × CacheEntry α)

namespace JsMap

/-- `Map.has(k)`. -/
def has (k : String) (m : JsMap α) : Bool := m.any (fun p => p.1 = k)

/-- `Map.get(k)` (`undefined` becomes `none`). -/
def find (k : String) (m : JsMap α) : Option (CacheEntry α) :=
  (m.find? (fun p => p.1 = k)).map Prod.snd

/-- `Map.delete(k)`: removes the entry with key `k` (a `Map` holds at most
one entry per key, so filtering all matches is the same operation). -/
def del (k : String) (m : JsMap α) : JsMap α := m.filter (fun p => p.1 ≠ k)

/-- `Map.set(k, v)`: updates in place (keeping the position) when the key is
present, appends at the end when it is absent. -/
def setPair (k : String) (v : CacheEntry α) (m : JsMap α) : JsMap α :=
  if has k m then m.map (fun p => if p.1 = k then (k, v) else p)
  else m ++ [(k, v)]

/-- `m.keys()` in iteration order. -/
def keys (m : JsMap α) : List String := m.map Prod.fst

theorem has_del_self (k : String) (m : JsMap α) : has k (del k m) = false := by
  simp [has, del, List.any_eq_true]

theorem setPair_of_not_has {k : String} {m : JsMap α} (h : has k m = false)
    (v : CacheEntry α) : setPair k v m = m ++ [(k, v)] := by
  simp [setPair, h]

theorem keys_setPair_of_has {k : String} {m : JsMap α} (h : has k m = true)
    (v : CacheEntry α) : keys (setPair k v m) = keys m := by
  simp only [setPair, h, if_pos, keys, List.map_map]
  refine List.map_congr_left (fun p _ => ?_)
  by_cases hp : p.1 = k <;> simp [hp]

theorem length_setPair (k : String) (v : CacheEntry α) (m : JsMap α) :
    (setPair k v m).length = if has k m then m.length else m.length + 1 := by
  by_cases h : has k m <;> simp [setPair, h]

theorem length_del_lt_of_find {k : String} {m : JsMap α} {it : CacheEntry α}
    (h : find k m = some it) : (del k m).length < m.length := by
  induction m with
  | nil => simp [find] at h
  | cons p t ih =>
      by_cases hp : p.1 = k
      · have h2 : (del k t).length ≤ t.length := List.length_filter_le _ t
        have h3 : del k (p :: t) = del k t := by simp [del, List.filter_cons, hp]
        rw [h3]
        simp only [List.length_cons]
        omega
      · have h' : find k t = some it := by
          simpa [find, List.find?_cons, hp] using h
        have h3 : del k (p :: t) = p :: del k t := by
          simp [del, List.filter_cons, hp]
        have := ih h'
        rw [h3]
        simp only [List.length_cons]
        omega

end JsMap

structure LRUCache (α : Type) where
  cache : JsMap α
  maxSize : Nat
  defaultTTL : Int
  deriving Repr

namespace LRUCache

/-- `get(key)` at time `now`: the returned value and the cache afterwards. -/
def get (c : LRUCache α) (k : String) (now : Int) : Option α × LRUCache α :=
  match JsMap.find k c.cache with
  | none => (none, c)
  | some it =>
      if now > it.expires then
        (none, { c with cache := JsMap.del k c.cache })
      else
        (some it.value,
         { c with cache := JsMap.setPair k it (JsMap.del k c.cache) })

/-- `set(key, value, ttl)` at time `now`. -/
def set (c : LRUCache α) (k : String) (v : α) (ttl now : Int) : LRUCache α :=
  let pruned :=
    if c.maxSize ≤ c.cache.length ∧ JsMap.has k c.cache = false then
      match c.cache with
      | [] => ([] : JsMap α)
      | (k0, _) :: _ => JsMap.del k0 c.cache
    else c.cache
  { c with cache := JsMap.setPair k ⟨v, now + ttl⟩ pruned }

/-- `key.includes(pattern)` on the underlying character lists. -/
def hasInfix (pat : List Char) : List Char → Bool
  | [] => pat.isEmpty
  | c :: rest => pat.isPrefixOf (c :: rest) || hasInfix pat rest

def strIncludes (s pat : String) : Bool := hasInfix pat.data s.data

def invalidate (c : LRUCache α) (pat : String) : LRUCache α :=
  { c with cache := c.cache.filter (fun p => ¬ strIncludes p.1 pat) }

def clear (c : LRUCache α) : LRUCache α := { c with cache := [] }

/-- `stats()`: `(size, maxSize)`. -/
def stats (c : LRUCache α) : Nat × Nat := (c.cache.length, c.maxSize)

def empty (α : Type) (maxSize : Nat) (ttl : Int) : LRUCache α := ⟨[], maxSize, ttl⟩

end LRUCache

namespace JsMap

theorem del_cons_self {k0 : String} {e0 : CacheEntry α} {rest : JsMap α}
    (hnd : (keys ((k0, e0) :: rest)).Nodup) :
    del k0 ((k0, e0) :: rest) = rest := by
  have hk0 : k0 ∉ keys rest := by
    simpa [keys] using (List.nodup_cons.mp hnd).1
  have h3 : del k0 ((k0, e0) :: rest) = del k0 rest := by
    simp [del, List.filter_cons]
  rw [h3]
  refine List.filter_eq_self.mpr (fun p hp => ?_)
  have : p.1 ∈ keys rest := List.mem_map_of_mem Prod.fst hp
  simp only [ne_eq, decide_eq_true_eq]
  exact fun hpk => hk0 (hpk ▸ this)

theorem has_filter_eq_false {k : String} {m : JsMap α} (h : has k m = false)
    (q : String × CacheEntry α → Bool) : has k (m.filter q) = false := by
  unfold has at h ⊢
  rw [List.any_eq_false] at h ⊢
  exact fun p hp => h p (List.mem_filter.mp hp).1

end JsMap

open JsMap LRUCache in
/-- **C2.** LRU discipline of the cache: a successful `get(key)` moves the
entry to the most-recent (last) position; `set(key, value)` with the cache at
capacity and `key` absent evicts exactly the single oldest (front) entry;
`set` on a present key evicts nothing and keeps the key set unchanged
(in-place update); and concretely with `maxSize = 2`, inserting `A` then `B`,
reading `A`, then inserting `C` leaves exactly `A` and `C` (B is evicted). -/
theorem lruCache_lru_discipline {α : Type} (c : LRUCache α) (k : String) (v : α)
    (ttl now : Int) (hnd : (keys c.cache).Nodup) :
    (∀ it : CacheEntry α, find k c.cache = some it → ¬ now > it.expires →
        get c k now
          = (some it.value, { c with cache := del k c.cache ++ [(k, it)] })) ∧
    (c.cache.length = c.maxSize → has k c.cache = false →
        (set c k v ttl now).cache = c.cache.tail ++ [(k, ⟨v, now + ttl⟩)]) ∧
    (has k c.cache = true →
        keys (set c k v ttl now).cache = keys c.cache) ∧
    (keys (LRUCache.set
        (LRUCache.get
          (LRUCache.set (LRUCache.set (empty Nat 2 10000) "A" 1 10000 0)
            "B" 2 10000 0) "A" 0).2
        "C" 3 10000 0).cache = ["A", "C"]) := by
  refine ⟨?_, ?_, ?_, by decide⟩
  · intro it hit h2
    unfold LRUCache.get
    rw [hit]
    dsimp only
    rw [if_neg h2, JsMap.setPair_of_not_has (JsMap.has_del_self k c.cache)]
  · intro hlen hhas
    have hcond : c.maxSize ≤ c.cache.length ∧ JsMap.has k c.cache = false :=
      ⟨le_of_eq hlen.symm, hhas⟩
    simp only [LRUCache.set]
    rw [if_pos hcond]
    rcases hc : c.cache with _ | ⟨⟨k0, e0⟩, rest⟩
    · dsimp only
      rw [JsMap.setPair_of_not_has (by unfold JsMap.has; rfl)]
      rfl
    · dsimp only
      rw [JsMap.del_cons_self (hc ▸ hnd)]
      have hrest : JsMap.has k rest = false := by
        have hh : JsMap.has k ((k0, e0) :: rest) = false := hc ▸ hhas
        unfold JsMap.has at hh ⊢
        rw [List.any_eq_false] at hh ⊢
        exact fun p hp => hh p (List.mem_cons_of_mem _ hp)
      rw [JsMap.setPair_of_not_has hrest]
      rfl
  · intro hhas
    have hcond : ¬ (c.maxSize ≤ c.cache.length ∧ JsMap.has k c.cache = false) := by
      intro hco
      rw [hhas] at hco
      exact absurd hco.2 (by simp)
    simp only [LRUCache.set]
    rw [if_neg hcond]
    exact JsMap.keys_setPair_of_has hhas (⟨v, now + ttl⟩ : CacheEntry α)

/-- Witness for `lruCache_lru_discipline` at the empty cache. -/
theorem lruCache_lru_discipline_witness :
    (JsMap.keys (LRUCache.empty Nat 2 10000).cache).Nodup ∧
    ((∀ it : CacheEntry Nat,
        JsMap.find "A" (LRUCache.empty Nat 2 10000).cache = some it →
          ¬ (0 : Int) > it.expires →
          LRUCache.get (LRUCache.empty Nat 2 10000) "A" 0
            = (some it.value,
               { LRUCache.empty Nat 2 10000 with
                   cache := JsMap.del "A" (LRUCache.empty Nat 2 10000).cache
                     ++ [("A", it)] })) ∧
     ((LRUCache.empty Nat 2 10000).cache.length
          = (LRUCache.empty Nat 2 10000).maxSize →
        JsMap.has "A" (LRUCache.empty Nat 2 10000).cache = false →
        (LRUCache.set (LRUCache.empty Nat 2 10000) "A" 7 10000 0).cache
          = (LRUCache.empty Nat 2 10000).cache.tail
              ++ [("A", ⟨7, (0 : Int) + 10000⟩)]) ∧
     (JsMap.has "A" (LRUCache.empty Nat 2 10000).cache = true →
        JsMap.keys (LRUCache.set (LRUCache.empty Nat 2 10000) "A" 7 10000 0).cache
          = JsMap.keys (LRUCache.empty Nat 2 10000).cache) ∧
     (JsMap.keys (LRUCache.set
        (LRUCache.get
          (LRUCache.set (LRUCache.set (LRUCache.empty Nat 2 10000) "A" 1 10000 0)
            "B" 2 10000 0) "A" 0).2
        "C" 3 10000 0).cache = ["A", "C"])) :=
  ⟨by decide, lruCache_lru_discipline (LRUCache.empty Nat 2 10000) "A" 7 10000 0 (by decide)⟩

/-! ### Arbitrary operation sequences on the cache (claim C7) -/

/-- One cache operation (the public surface of `LRUCache`). -/
inductive CacheOp (α : Type) where
  | get (k : String) (now : Int)
  | set (k : String) (v : α) (ttl now : Int)
  | invalidate (pat : String)
  | clear

namespace LRUCache

def applyOp (c : LRUCache α) : CacheOp α → LRUCache α
  | .get k now => (LRUCache.get c k now).2
  | .set k v ttl now => LRUCache.set c k v ttl now
  | .invalidate pat => LRUCache.invalidate c pat
  | .clear => LRUCache.clear c

theorem applyOp_maxSize (c : LRUCache α) (op : CacheOp α) :
    (applyOp c op).maxSize = c.maxSize := by
  cases op with
  | get k now =>
      show (LRUCache.get c k now).2.maxSize = c.maxSize
      unfold LRUCache.get
      rcases hf : JsMap.find k c.cache with _ | it
      · rfl
      · dsimp only
        split_ifs <;> rfl
  | set k v ttl now => rfl
  | invalidate pat => rfl
  | clear => rfl

theorem length_applyOp_le (c : LRUCache α) (op : CacheOp α)
    (hmax : 1 ≤ c.maxSize) (h : c.cache.length ≤ c.maxSize) :
    (applyOp c op).cache.length ≤ c.maxSize := by
  cases op with
  | get k now =>
      show (LRUCache.get c k now).2.cache.length ≤ c.maxSize
      unfold LRUCache.get
      rcases hf : JsMap.find k c.cache with _ | it
      · exact h
      · dsimp only
        split_ifs with hexp
        · exact le_trans (List.length_filter_le _ _) h
        · have hlt := JsMap.length_del_lt_of_find hf
          rw [JsMap.setPair_of_not_has (JsMap.has_del_self k c.cache)]
          simp only [List.length_append, List.length_cons, List.length_nil]
          omega
  | set k v ttl now =>
      show (LRUCache.set c k v ttl now).cache.length ≤ c.maxSize
      simp only [LRUCache.set]
      by_cases hcond : c.maxSize ≤ c.cache.length ∧ JsMap.has k c.cache = false
      · rw [if_pos hcond]
        rcases hc : c.cache with _ | ⟨⟨k0, e0⟩, rest⟩
        · dsimp only
          rw [JsMap.setPair_of_not_has (by unfold JsMap.has; rfl)]
          simpa using hmax
        · dsimp only
          have hfind : JsMap.find k0 ((k0, e0) :: rest) = some e0 := by
            unfold JsMap.find
            rw [List.find?_cons]
            simp
          have hlt := JsMap.length_del_lt_of_find hfind
          have hk : JsMap.has k (JsMap.del k0 ((k0, e0) :: rest)) = false :=
            JsMap.has_filter_eq_false (hc ▸ hcond.2) _
          rw [JsMap.setPair_of_not_has hk]
          rw [hc] at h
          simp only [List.length_append, List.length_cons, List.length_nil] at *
          omega
      · rw [if_neg hcond]
        rw [JsMap.length_setPair]
        split_ifs with hk
        · exact h
        · have hB : JsMap.has k c.cache = false := by
            simpa using hk
          have hA : ¬ c.maxSize ≤ c.cache.length := fun hA => hcond ⟨hA, hB⟩
          omega
  | invalidate pat =>
      show (LRUCache.invalidate c pat).cache.length ≤ c.maxSize
      exact le_trans (List.length_filter_le _ _) h
  | clear =>
      show (LRUCache.clear c).cache.length ≤ c.maxSize
      simp [LRUCache.clear]

theorem foldl_applyOp_le (ops : List (CacheOp α)) :
    ∀ c : LRUCache α, 1 ≤ c.maxSize → c.cache.length ≤ c.maxSize →
      (ops.foldl applyOp c).cache.length ≤ c.maxSize
        ∧ (ops.foldl applyOp c).maxSize = c.maxSize := by
  induction ops with
  | nil => exact fun c _ h => ⟨h, rfl⟩
  | cons op rest ih =>
      intro c hmax h
      have hstep := length_applyOp_le c op hmax h
      have hms := applyOp_maxSize c op
      have := ih (applyOp c op) (hms ▸ hmax) (hms ▸ hstep)
      simpa [List.foldl_cons, hms] using this

end LRUCache

/-- **C7.** For every `LRUCache` constructed with `maxSize ≥ 1` and every
finite sequence of `get`/`set`/`invalidate`/`clear` operations, the stored
entry count (`stats().size`) never exceeds `maxSize`. -/
theorem lruCache_size_never_exceeds_capacity {α : Type} (maxSize : Nat)
    (ttl : Int) (ops : List (CacheOp α)) (hmax : 1 ≤ maxSize) :
    (LRUCache.stats (ops.foldl LRUCache.applyOp (LRUCache.empty α maxSize ttl))).1
      ≤ maxSize :=
  (LRUCache.foldl_applyOp_le ops (LRUCache.empty α maxSize ttl) hmax
    (by simp [LRUCache.empty])).1

/-- Witness for `lruCache_size_never_exceeds_capacity`: three operations on a
capacity-1 cache. -/
theorem lruCache_size_never_exceeds_capacity_witness :
    1 ≤ 1 ∧
    (LRUCache.stats
        ([CacheOp.set "A" (0 : Nat) 5000 0, CacheOp.set "B" 1 5000 1,
            CacheOp.get "A" 2].foldl
          LRUCache.applyOp (LRUCache.empty Nat 1 10000))).1 ≤ 1 :=
  ⟨le_refl 1,
   lruCache_size_never_exceeds_capacity 1 10000
     [CacheOp.set "A" 0 5000 0, CacheOp.set "B" 1 5000 1, CacheOp.get "A" 2]
     (le_refl 1)⟩

/-! ## Retry with exponential backoff (`src/index.js` lines 100-116)

```js
async function retryWithBackoff(fn, options = {}) {
  const { maxRetries = 3, baseDelay = 1000, maxDelay = 10000, correlationId } = options;
  let lastError;
  for (let attempt = 1; attempt <= maxRetries; attempt++) {
    try { return await fn(); }
    catch (error) {
      lastError = error;
      if (error.statusCode && error.statusCode >= 400 && error.statusCode < 500
          && error.statusCode !== 429) throw error;
      if (attempt < maxRetries) {
        const delay = Math.min(baseDelay * Math.pow(2, attempt - 1)
          + Math.random() * 1000, maxDelay);
        structuredLog('warn', ...);
        await new Promise(resolve => setTimeout(resolve, delay));
      }
    }
  }
  throw lastError;
}
```
The stateful `fn` is modelled as a function from the (1-based) attempt
number to that invocation's outcome. The jittered sleep is abstracted to a
count of delays performed; the claims only speak about how many delays
happen. -/

/-- A JS `Error` as the retry logic observes it: a message and an optional
numeric `statusCode` property. -/
structure JsError where
  message : String
  statusCode : Option Nat
  deriving Repr, DecidableEq

/-- `error.statusCode && error.statusCode >= 400 && error.statusCode < 500 &&
error.statusCode !== 429`: a non-retryable client fault. (A `statusCode` of
`0` is falsy in JS; it also fails `>= 400`, so modelling "falsy/absent" as
`none` is faithful.) -/
def nonRetryable (e : JsError) : Bool :=
  match e.statusCode with
  | none => false
  | some c => 400 ≤ c ∧ c < 500 ∧ c ≠ 429

/-- The retry loop from iteration `attempt` with `remaining` further
iterations allowed after this one. Returns the outcome, the number of
invocations of `fn` performed, and the number of backoff delays performed. -/
def retryGo (fn : Nat → Except JsError α) (attempt : Nat) :
    Nat → Except JsError α × Nat × Nat
  | 0 =>
      -- final iteration (`attempt === maxRetries`): an error, retryable or
      -- not, is thrown without a delay; a success is returned
      (fn attempt, 1, 0)
  | remaining + 1 =>
      match fn attempt with
      | .ok a => (.ok a, 1, 0)
      | .error e =>
          if nonRetryable e then (.error e, 1, 0)
          else
            let rest := retryGo fn (attempt + 1) remaining
            (rest.1, rest.2.1 + 1, rest.2.2 + 1)

/-- `retryWithBackoff(fn, {maxRetries})`: `none` is the degenerate
`maxRetries = 0` case in which the loop body never runs and JS throws
`undefined`. -/
def retryWithBackoff (fn : Nat → Except JsError α) (maxRetries : Nat) :
    Option (Except JsError α) × Nat × Nat :=
  match maxRetries with
  | 0 => (none, 0, 0)
  | m + 1 =>
      let r := retryGo fn 1 m
      (some r.1, r.2.1, r.2.2)

theorem retryGo_invocations_le (fn : Nat → Except JsError α) :
    ∀ (remaining attempt : Nat),
      (retryGo fn attempt remaining).2.1 ≤ remaining + 1 := by
  intro remaining
  induction remaining with
  | zero => intro attempt; simp [retryGo]
  | succ r ih =>
      intro attempt
      show (retryGo fn attempt (r + 1)).2.1 ≤ r + 2
      unfold retryGo
      rcases fn attempt with e | a
      · dsimp only
        split_ifs with hnr
        · simp
        · have := ih (attempt + 1)
          dsimp only
          omega
      · simp

/-- If the first `j` outcomes starting at `attempt` are retryable errors and
the `(j+1)`-st is a success or a non-retryable error, the loop stops there:
`j + 1` invocations, `j` delays, and that outcome is surfaced. -/
theorem retryGo_stop (fn : Nat → Except JsError α) :
    ∀ (j remaining attempt : Nat), j ≤ remaining →
      (∀ i, i < j → ∃ e, fn (attempt + i) = .error e ∧ nonRetryable e = false) →
      ((∃ a, fn (attempt + j) = .ok a) ∨
        (∃ e, fn (attempt + j) = .error e ∧ nonRetryable e = true)) →
      retryGo fn attempt remaining = (fn (attempt + j), j + 1, j) := by
  intro j
  induction j with
  | zero =>
      intro remaining attempt _ _ hstop
      simp only [Nat.add_zero] at hstop ⊢
      rcases remaining with _ | r
      · simp [retryGo]
      · unfold retryGo
        rcases hstop with ⟨a, ha⟩ | ⟨e, he, hne⟩
        · rw [ha]
        · rw [he]
          dsimp only
          rw [if_pos hne]
  | succ j ih =>
      intro remaining attempt hle hfail hstop
      rcases remaining with _ | r
      · omega
      · obtain ⟨e0, he0, hne0⟩ := hfail 0 (Nat.succ_pos j)
        rw [Nat.add_zero] at he0
        unfold retryGo
        rw [he0]
        dsimp only
        rw [if_neg (by simp [hne0])]
        have hrec := ih r (attempt + 1) (by omega)
          (fun i hi => by
            have := hfail (i + 1) (by omega)
            rwa [show attempt + (i + 1) = attempt + 1 + i by omega] at this)
          (by
            rw [show attempt + 1 + j = attempt + (j + 1) by omega]
            exact hstop)
        rw [hrec]
        dsimp only
        rw [show attempt + 1 + j = attempt + (j + 1) by omega]

/-- If every outcome from `attempt` through `attempt + remaining` is a
retryable error, the whole budget is used: `remaining + 1` invocations,
`remaining` delays, and the last error is surfaced. -/
theorem retryGo_all_fail (fn : Nat → Except JsError α) :
    ∀ (remaining attempt : Nat),
      (∀ i, i ≤ remaining → ∃ e, fn (attempt + i) = .error e ∧ nonRetryable e = false) →
      retryGo fn attempt remaining = (fn (attempt + remaining), remaining + 1, remaining) := by
  intro remaining
  induction remaining with
  | zero =>
      intro attempt _
      simp [retryGo]
  | succ r ih =>
      intro attempt hfail
      obtain ⟨e0, he0, hne0⟩ := hfail 0 (Nat.zero_le _)
      rw [Nat.add_zero] at he0
      unfold retryGo
      rw [he0]
      dsimp only
      rw [if_neg (by simp [hne0])]
      have hrec := ih (attempt + 1) (fun i hi => by
        have := hfail (i + 1) (by omega)
        rwa [show attempt + (i + 1) = attempt + 1 + i by omega] at this)
      rw [hrec]
      dsimp only
      rw [show attempt + 1 + r = attempt + (r + 1) by omega]

/-- **C3.** `retryWithBackoff(fn, {maxRetries})` invokes `fn` at most
`maxRetries` times; an error with a `statusCode` in `[400, 500)` other than
429 is thrown immediately, with no further invocation and no delay for it;
any other error is retried until the budget is exhausted, after which the
last error is thrown; a successful attempt's result is returned. The
invocation/delay counts are exact: stopping at attempt `k` means `k`
invocations and `k - 1` delays (so 503 failures on attempts 1 and 2 with
success on attempt 3 and `maxRetries = 3` return the result after exactly 2
delays, and a 404 on attempt 1 performs 1 invocation and 0 delays). -/
theorem retryWithBackoff_policy {α : Type} (fn : Nat → Except JsError α)
    (m : Nat) (hm : 1 ≤ m) :
    (retryWithBackoff fn m).2.1 ≤ m ∧
    (∀ k e, 1 ≤ k → k ≤ m →
      (∀ i, 1 ≤ i → i < k → ∃ e', fn i = .error e' ∧ nonRetryable e' = false) →
      fn k = .error e → nonRetryable e = true →
      retryWithBackoff fn m = (some (.error e), k, k - 1)) ∧
    (∀ k a, 1 ≤ k → k ≤ m →
      (∀ i, 1 ≤ i → i < k → ∃ e', fn i = .error e' ∧ nonRetryable e' = false) →
      fn k = .ok a →
      retryWithBackoff fn m = (some (.ok a), k, k - 1)) ∧
    ((∀ i, 1 ≤ i → i ≤ m → ∃ e', fn i = .error e' ∧ nonRetryable e' = false) →
      retryWithBackoff fn m = (some (fn m), m, m - 1)) := by
  rcases m with _ | m'
  · omega
  have hrw : retryWithBackoff fn (m' + 1)
      = (some (retryGo fn 1 m').1, (retryGo fn 1 m').2.1, (retryGo fn 1 m').2.2) := rfl
  refine ⟨?_, ?_, ?_, ?_⟩
  · rw [hrw]
    have := retryGo_invocations_le fn m' 1
    dsimp only
    omega
  · intro k e hk1 hkm hfail hke hnr
    rcases k with _ | k'
    · omega
    have hgo := retryGo_stop fn k' m' 1 (by omega)
      (fun i hi => by
        have := hfail (i + 1) (by omega) (by omega)
        rwa [show 1 + i = i + 1 by omega])
      (Or.inr ⟨e, by rw [show 1 + k' = k' + 1 by omega]; exact hke, hnr⟩)
    rw [hrw, hgo]
    dsimp only
    rw [show 1 + k' = k' + 1 by omega, hke]
    simp
  · intro k a hk1 hkm hfail hka
    rcases k with _ | k'
    · omega
    have hgo := retryGo_stop fn k' m' 1 (by omega)
      (fun i hi => by
        have := hfail (i + 1) (by omega) (by omega)
        rwa [show 1 + i = i + 1 by omega])
      (Or.inl ⟨a, by rw [show 1 + k' = k' + 1 by omega]; exact hka⟩)
    rw [hrw, hgo]
    dsimp only
    rw [show 1 + k' = k' + 1 by omega, hka]
    simp
  · intro hfail
    have hgo := retryGo_all_fail fn m' 1
      (fun i hi => by
        have := hfail (i + 1) (by omega) (by omega)
        rwa [show 1 + i = i + 1 by omega])
    rw [hrw, hgo]
    dsimp only
    rw [show 1 + m' = m' + 1 by omega]
    simp

/-- The concrete operation of the spec's retry example: a 503 error on
attempts 1 and 2, success (`42`) from attempt 3 on. -/
def ex503 : Nat → Except JsError Nat :=
  fun i => if i ≤ 2 then .error ⟨"503", some 503⟩ else .ok 42

/-- Witness for `retryWithBackoff_policy`: 503 errors on attempts 1 and 2,
success (`42`) on attempt 3, `maxRetries = 3`. -/
theorem retryWithBackoff_policy_witness :
    1 ≤ 3 ∧
    ((retryWithBackoff ex503 3).2.1 ≤ 3 ∧
     (∀ k e, 1 ≤ k → k ≤ 3 →
        (∀ i, 1 ≤ i → i < k →
          ∃ e', ex503 i = .error e' ∧ nonRetryable e' = false) →
        ex503 k = .error e → nonRetryable e = true →
        retryWithBackoff ex503 3 = (some (.error e), k, k - 1)) ∧
     (∀ k a, 1 ≤ k → k ≤ 3 →
        (∀ i, 1 ≤ i → i < k →
          ∃ e', ex503 i = .error e' ∧ nonRetryable e' = false) →
        ex503 k = .ok a →
        retryWithBackoff ex503 3 = (some (.ok a), k, k - 1)) ∧
     ((∀ i, 1 ≤ i → i ≤ 3 →
          ∃ e', ex503 i = .error e' ∧ nonRetryable e' = false) →
        retryWithBackoff ex503 3 = (some (ex503 3), 3, 3 - 1))) :=
  ⟨by decide, retryWithBackoff_policy ex503 3 (by decide)⟩

/-! ## Circuit-breaker gate of `julesRequest` (`src/index.js` lines 581-586)

```js
function julesRequest(method, path, body = null) {
  // Circuit breaker check
  if (circuitBreaker.isOpen()) {
    return Promise.reject(new Error('Circuit breaker is open - Jules API temporarily unavailable'));
  }
  return new Promise((resolve, reject) => { ... network request ... });
}
```
and `cancelSession` (lines 790-794) wraps it in the retry orchestrator:
`retryWithBackoff(() => julesRequest('POST', ...), { maxRetries: 2 })`.
The rejection is a plain `Error`: it carries **no** `statusCode`. -/

/-- The circuit-open rejection of `julesRequest` (no `statusCode` property). -/
def circuitOpenError : JsError :=
  { message := "Circuit breaker is open - Jules API temporarily unavailable",
    statusCode := none }

/-- The head of `julesRequest`: if the breaker is open the call rejects
immediately with `circuitOpenError` (the network is never attempted);
otherwise the outcome is whatever the network phase produces (`net`). -/
def julesGate (cb : CircuitBreaker) (now : Int) (net : Except JsError α) :
    Except JsError α :=
  if (CircuitBreaker.isOpen cb now).1 then .error circuitOpenError else net

/-- **C8 counterexample.** With the breaker open (`failures = 5`, last failure
at 0, checks at time 1000) and `julesRequest` wrapped in
`retryWithBackoff(..., { maxRetries: 2 })` as in `cancelSession`: the
circuit-open rejection IS retried — 2 invocations and 1 backoff delay — not
the claimed single invocation with no delay, because the rejection carries no
`statusCode` and is therefore a retryable error for `retryWithBackoff`. -/
theorem julesRequest_circuitOpen_retried :
    (retryWithBackoff (fun _ => julesGate (⟨5, 0⟩ : CircuitBreaker) 1000
        (Except.ok ())) 2).2 = (2, 1) ∧
    ¬ ((retryWithBackoff (fun _ => julesGate (⟨5, 0⟩ : CircuitBreaker) 1000
        (Except.ok ())) 2).2 = (1, 0)) := by
  constructor
  · rfl
  · intro h
    rw [show (retryWithBackoff (fun _ => julesGate (⟨5, 0⟩ : CircuitBreaker) 1000
        (Except.ok ())) 2).2 = (2, 1) from rfl] at h
    exact absurd h (by decide)

/-- **C8 (amended).** While the breaker stays open, each attempt of the
wrapped call does fail fast with the "temporarily unavailable" error and
never reaches the network — but that error carries no `statusCode`, so the
retry orchestrator treats it as retryable: it consumes the entire retry
budget (`maxRetries` invocations, `maxRetries - 1` backoff delays) before
surfacing the circuit-open error. -/
theorem julesRequest_circuitOpen_retry {α : Type} (cb : CircuitBreaker)
    (m : Nat) (times : Nat → Int) (net : Nat → Except JsError α) (hm : 1 ≤ m)
    (hopen : ∀ i, 1 ≤ i → i ≤ m → (CircuitBreaker.isOpen cb (times i)).1 = true) :
    (∀ i, 1 ≤ i → i ≤ m →
        julesGate cb (times i) (net i) = .error circuitOpenError) ∧
    retryWithBackoff (fun i => julesGate cb (times i) (net i)) m
      = (some (.error circuitOpenError), m, m - 1) := by
  have hfast : ∀ i, 1 ≤ i → i ≤ m →
      julesGate cb (times i) (net i) = .error circuitOpenError := by
    intro i h1 h2
    unfold julesGate
    rw [hopen i h1 h2]
    rfl
  refine ⟨hfast, ?_⟩
  rcases m with _ | m'
  · omega
  have hrw : retryWithBackoff (fun i => julesGate cb (times i) (net i)) (m' + 1)
      = (some (retryGo (fun i => julesGate cb (times i) (net i)) 1 m').1,
         (retryGo (fun i => julesGate cb (times i) (net i)) 1 m').2.1,
         (retryGo (fun i => julesGate cb (times i) (net i)) 1 m').2.2) := rfl
  have hgo := retryGo_all_fail (fun i => julesGate cb (times i) (net i)) m' 1
    (fun i hi =>
      ⟨circuitOpenError, hfast (1 + i) (by omega) (by omega), rfl⟩)
  rw [hrw, hgo]
  dsimp only
  rw [hfast (1 + m') (by omega) (by omega)]
  simp

/-! ## Session queue with priority (`src/index.js` lines 59-85)

```js
class SessionQueue {
  constructor(maxRetained = 100) { this.queue = []; this.processing = false; this.maxRetained = maxRetained; }
  add(config, priority = 5) {
    const id = `queue_<ts>_<rand>`;
    const item = { id, config, priority, addedAt: ..., status: 'pending' };
    this.queue.push(item);
    this.queue.sort((a, b) => a.priority - b.priority);
    this._cleanup();
    return item;
  }
  remove(id) { const idx = this.queue.findIndex(i => i.id === id); return idx >= 0 ? this.queue.splice(idx, 1)[0] : null; }
  getNext() { return this.queue.find(i => i.status === 'pending'); }
  markProcessing(id) { const item = this.queue.find(i => i.id === id); if (item) item.status = 'processing'; }
  markComplete(id, sessionId) { ... status = 'completed', sessionId, completedAt ... this._cleanup(); }
  markFailed(id, error) { ... status = 'failed', error, failedAt ... this._cleanup(); }
  clear() { ... removes pending items, returns their count ... }
  _cleanup() {
    const terminal = this.queue.filter(i => i.status === 'completed' || i.status === 'failed');
    if (terminal.length > this.maxRetained) {
      const toRemove = terminal.slice(0, terminal.length - this.maxRetained);
      toRemove.forEach(item => { const idx = this.queue.indexOf(item); if (idx >= 0) this.queue.splice(idx, 1); });
    }
  }
}
```
The generated unique ids (`queue_<timestamp>_<random>`) are modelled by a
monotone sequence number `seq` drawn from a per-queue counter: what matters
to the logic is only that ids are distinct and record creation order.
`Array.prototype.sort` is stable (ES2019), so the sort by the priority
comparator is modelled by Mathlib's (stable) `insertionSort` on the
priority preorder. `_cleanup` removes items by object identity
(`indexOf`/`splice`, one occurrence each); since every item in a reachable
queue is distinct (distinct `seq`), that equals filtering out the members
of `toRemove`. -/

inductive QStatus where
  | pending
  | processing
  | completed
  | failed
  deriving Repr, DecidableEq

structure QItem where
  seq : Nat
  config : String
  priority : Int
  addedAt : Int
  status : QStatus
  sessionId : Option String
  error : Option String
  completedAt : Option Int
  failedAt : Option Int
  deriving Repr, DecidableEq

structure SessionQueue where
  queue : List QItem
  maxRetained : Nat
  nextSeq : Nat
  deriving Repr

namespace SessionQueue

/-- `i.status === 'completed' || i.status === 'failed'`. -/
def isTerminal (i : QItem) : Bool :=
  i.status = QStatus.completed ∨ i.status = QStatus.failed

/-- The priority preorder the JS comparator `(a, b) => a.priority - b.priority`
induces. -/
def prioLe (a b : QItem) : Prop := a.priority ≤ b.priority

instance : DecidableRel prioLe := fun a b => Int.decLe a.priority b.priority

/-- `_cleanup()`: drop the earliest-positioned terminal items so that at most
`maxRetained` terminal items remain. -/
def cleanup (q : SessionQueue) : SessionQueue :=
  let terminal := q.queue.filter isTerminal
  if q.maxRetained < terminal.length then
    let toRemove := terminal.take (terminal.length - q.maxRetained)
    { q with queue := q.queue.filter (fun i => decide (i ∉ toRemove)) }
  else q

/-- `add(config, priority)`: push, stable-sort by priority, cleanup.
Returns the created item and the queue afterwards. -/
def add (q : SessionQueue) (config : String) (priority : Int) (now : Int) :
    QItem × SessionQueue :=
  let item : QItem :=
    { seq := q.nextSeq
      config := config
      priority := priority
      addedAt := now
      status := QStatus.pending
      sessionId := none
      error := none
      completedAt := none
      failedAt := none }
  (item,
   cleanup { q with
      queue := (q.queue ++ [item]).insertionSort prioLe
      nextSeq := q.nextSeq + 1 })

/-- Mutate the first list element satisfying `p` (JS `find` + in-place
mutation). -/
def updateFirst (p : QItem → Bool) (f : QItem → QItem) : List QItem → List QItem
  | [] => []
  | x :: xs => if p x then f x :: xs else x :: updateFirst p f xs

/-- `getNext()`. -/
def getNext (q : SessionQueue) : Option QItem :=
  q.queue.find? (fun i => i.status = QStatus.pending)

/-- `markProcessing(id)`. -/
def markProcessing (q : SessionQueue) (id : Nat) : SessionQueue :=
  { q with queue := (updateFirst (fun i => i.seq = id)
      (fun i => { i with status := QStatus.processing }) q.queue) }

/-- The in-place mutation performed by `markComplete`. -/
def completeUpd (id : Nat) (sessionId : String) (now : Int)
    (l : List QItem) : List QItem :=
  updateFirst (fun i => i.seq = id)
    (fun i => { i with
        status := QStatus.completed
        sessionId := some sessionId
        completedAt := some now }) l

/-- `markComplete(id, sessionId)` at time `now`. -/
def markComplete (q : SessionQueue) (id : Nat) (sessionId : String)
    (now : Int) : SessionQueue :=
  cleanup { q with queue := completeUpd id sessionId now q.queue }

/-- The in-place mutation performed by `markFailed`. -/
def failUpd (id : Nat) (err : String) (now : Int) (l : List QItem) :
    List QItem :=
  updateFirst (fun i => i.seq = id)
    (fun i => { i with
        status := QStatus.failed
        error := some err
        failedAt := some now }) l

/-- `markFailed(id, error)` at time `now`. -/
def markFailed (q : SessionQueue) (id : Nat) (err : String) (now : Int) :
    SessionQueue :=
  cleanup { q with queue := failUpd id err now q.queue }

/-- `remove(id)`: splice out the first item with that id. -/
def removeId (q : SessionQueue) (id : Nat) : SessionQueue :=
  { q with queue := q.queue.eraseP (fun i => i.seq = id) }

/-- `clear()`: drop the pending items. -/
def clearPending (q : SessionQueue) : SessionQueue :=
  { q with queue := q.queue.filter (fun i => i.status ≠ QStatus.pending) }

def emptyQ (maxRetained : Nat) : SessionQueue :=
  { queue := [], maxRetained := maxRetained, nextSeq := 0 }

end SessionQueue

/-- One public operation on the session queue. -/
inductive QOp where
  | add (config : String) (priority : Int) (now : Int)
  | remove (id : Nat)
  | markProcessing (id : Nat)
  | markComplete (id : Nat) (sessionId : String) (now : Int)
  | markFailed (id : Nat) (err : String) (now : Int)
  | clear

namespace SessionQueue

def applyQOp (q : SessionQueue) : QOp → SessionQueue
  | .add config priority now => (add q config priority now).2
  | .remove id => removeId q id
  | .markProcessing id => markProcessing q id
  | .markComplete id sid now => markComplete q id sid now
  | .markFailed id err now => markFailed q id err now
  | .clear => clearPending q

/-- The queue states reachable through the public operations. -/
inductive Reachable : SessionQueue → Prop where
  | empty (maxRetained : Nat) : Reachable (emptyQ maxRetained)
  | step {q : SessionQueue} (op : QOp) : Reachable q → Reachable (applyQOp q op)

/-- The ordering key the queue is kept sorted by: priority, then creation
order. -/
def key (i : QItem) : Int × Nat := (i.priority, i.seq)

def keyLt (k1 k2 : Int × Nat) : Prop :=
  k1.1 < k2.1 ∨ (k1.1 = k2.1 ∧ k1.2 < k2.2)

/-- Strictly before in the queue order: strictly higher priority (lower
value), or same priority and enqueued earlier. -/
def lexLt (a b : QItem) : Prop := keyLt (key a) (key b)

/-- The invariant every reachable queue satisfies: the list is sorted by
`(priority, seq)` and all sequence numbers are below the counter. -/
def Inv (q : SessionQueue) : Prop :=
  q.queue.Pairwise lexLt ∧ ∀ x ∈ q.queue, x.seq < q.nextSeq

/-- Insertion of a single item after every item of priority ≤ its own: the
effect a stable sort has when one new item is appended to a sorted list. -/
def stableInsert (a : QItem) : List QItem → List QItem
  | [] => [a]
  | y :: ys =>
      if y.priority ≤ a.priority then y :: stableInsert a ys else a :: y :: ys

theorem mem_stableInsert (a x : QItem) (l : List QItem) :
    x ∈ stableInsert a l ↔ x = a ∨ x ∈ l := by
  induction l with
  | nil => simp [stableInsert]
  | cons y ys ih =>
      unfold stableInsert
      split_ifs with h <;> (simp only [List.mem_cons, ih]; try tauto)

theorem orderedInsert_stableInsert (x a : QItem) (xs : List QItem)
    (hx : ∀ z ∈ xs, lexLt x z) :
    List.orderedInsert prioLe x (stableInsert a xs) = stableInsert a (x :: xs) := by
  cases xs with
  | nil =>
      by_cases hxa : x.priority ≤ a.priority
      · simp [stableInsert, List.orderedInsert, prioLe, hxa]
      · simp [stableInsert, List.orderedInsert, prioLe, hxa]
  | cons y ys =>
      have hxy : x.priority ≤ y.priority := by
        have := hx y (List.mem_cons_self y ys)
        simp only [lexLt, keyLt, key] at this
        omega
      by_cases hya : y.priority ≤ a.priority
      · have h1 : stableInsert a (y :: ys) = y :: stableInsert a ys := by
          simp only [stableInsert]
          rw [if_pos hya]
        by_cases hxa : x.priority ≤ a.priority
        · have h2 : stableInsert a (x :: y :: ys) = x :: stableInsert a (y :: ys) := by
            simp only [stableInsert]
            rw [if_pos hxa, if_pos hya]
          rw [h1, h2, h1]
          show List.orderedInsert prioLe x (y :: stableInsert a ys)
              = x :: y :: stableInsert a ys
          simp only [List.orderedInsert]
          rw [if_pos (show prioLe x y from hxy)]
        · exact absurd (le_trans hxy hya) hxa
      · have h1 : stableInsert a (y :: ys) = a :: y :: ys := by
          simp only [stableInsert]
          rw [if_neg hya]
        rw [h1]
        by_cases hxa : x.priority ≤ a.priority
        · have h2 : stableInsert a (x :: y :: ys) = x :: stableInsert a (y :: ys) := by
            simp only [stableInsert]
            rw [if_pos hxa, if_neg hya]
          rw [h2, h1]
          simp only [List.orderedInsert]
          rw [if_pos (show prioLe x a from hxa)]
        · have h2 : stableInsert a (x :: y :: ys) = a :: x :: y :: ys := by
            simp only [stableInsert]
            rw [if_neg hxa]
          rw [h2]
          simp only [List.orderedInsert]
          rw [if_neg (show ¬ prioLe x a from hxa),
            if_pos (show prioLe x y from hxy)]

/-- On a `(priority, seq)`-sorted list, the stable sort of the code's
`push` + `sort` is exactly `stableInsert`. -/
theorem insertionSort_append_single (l : List QItem) (a : QItem)
    (hl : l.Pairwise lexLt) :
    (l ++ [a]).insertionSort prioLe = stableInsert a l := by
  induction l with
  | nil => simp [List.insertionSort, List.orderedInsert, stableInsert]
  | cons x xs ih =>
      have hx : ∀ z ∈ xs, lexLt x z := (List.pairwise_cons.mp hl).1
      have hxs : xs.Pairwise lexLt := (List.pairwise_cons.mp hl).2
      have hstep : ((x :: xs) ++ [a]).insertionSort prioLe
          = List.orderedInsert prioLe x ((xs ++ [a]).insertionSort prioLe) := rfl
      rw [hstep, ih hxs]
      exact orderedInsert_stableInsert x a xs hx

theorem pairwise_stableInsert (a : QItem) (l : List QItem)
    (hl : l.Pairwise lexLt) (hseq : ∀ x ∈ l, x.seq < a.seq) :
    (stableInsert a l).Pairwise lexLt := by
  induction l with
  | nil => simp [stableInsert]
  | cons y ys ih =>
      have hy : ∀ z ∈ ys, lexLt y z := (List.pairwise_cons.mp hl).1
      have hys : ys.Pairwise lexLt := (List.pairwise_cons.mp hl).2
      unfold stableInsert
      split_ifs with hya
      · refine List.pairwise_cons.mpr
          ⟨?_, ih hys (fun x hx => hseq x (List.mem_cons_of_mem _ hx))⟩
        intro z hz
        rcases (mem_stableInsert a z ys).mp hz with rfl | hz'
        · have hs := hseq y (List.mem_cons_self y ys)
          simp only [lexLt, keyLt, key]
          rcases lt_or_eq_of_le hya with h | h
          · exact Or.inl h
          · exact Or.inr ⟨h, hs⟩
        · exact hy z hz'
      · refine List.pairwise_cons.mpr ⟨?_, hl⟩
        intro z hz
        have hya' : a.priority < y.priority := by omega
        rcases List.mem_cons.mp hz with rfl | hz'
        · simp only [lexLt, keyLt, key]
          exact Or.inl hya'
        · have := hy z hz'
          simp only [lexLt, keyLt, key] at this ⊢
          left
          omega

theorem map_key_updateFirst (p : QItem → Bool) (f : QItem → QItem)
    (hf : ∀ x, key (f x) = key x) (l : List QItem) :
    (updateFirst p f l).map key = l.map key := by
  induction l with
  | nil => rfl
  | cons x xs ih =>
      unfold updateFirst
      split_ifs with hp
      · simp [hf x]
      · simp [ih]

theorem pairwise_updateFirst (p : QItem → Bool) (f : QItem → QItem)
    (hf : ∀ x, key (f x) = key x) (l : List QItem)
    (hl : l.Pairwise lexLt) : (updateFirst p f l).Pairwise lexLt := by
  have h1 : ∀ m : List QItem, m.Pairwise lexLt ↔ (m.map key).Pairwise keyLt := by
    intro m
    rw [List.pairwise_map]
    exact Iff.rfl
  rw [h1, map_key_updateFirst p f hf]
  exact (h1 l).mp hl

theorem mem_updateFirst {p : QItem → Bool} {f : QItem → QItem}
    {l : List QItem} {x : QItem} (hx : x ∈ updateFirst p f l) :
    x ∈ l ∨ ∃ y, y ∈ l ∧ x = f y := by
  induction l with
  | nil => simp [updateFirst] at hx
  | cons z zs ih =>
      unfold updateFirst at hx
      split_ifs at hx with hp
      · rcases List.mem_cons.mp hx with rfl | hx'
        · exact Or.inr ⟨z, List.mem_cons_self z zs, rfl⟩
        · exact Or.inl (List.mem_cons_of_mem _ hx')
      · rcases List.mem_cons.mp hx with rfl | hx'
        · exact Or.inl (List.mem_cons_self _ _)
        · rcases ih hx' with h | ⟨y, hy, hxy⟩
          · exact Or.inl (List.mem_cons_of_mem _ h)
          · exact Or.inr ⟨y, List.mem_cons_of_mem _ hy, hxy⟩

theorem cleanup_queue_sublist (q : SessionQueue) :
    (cleanup q).queue.Sublist q.queue := by
  unfold cleanup
  dsimp only
  split_ifs with h
  · exact List.filter_sublist _
  · exact List.Sublist.refl _

theorem cleanup_maxRetained (q : SessionQueue) :
    (cleanup q).maxRetained = q.maxRetained := by
  unfold cleanup
  dsimp only
  split_ifs <;> rfl

theorem cleanup_nextSeq (q : SessionQueue) :
    (cleanup q).nextSeq = q.nextSeq := by
  unfold cleanup
  dsimp only
  split_ifs <;> rfl

theorem inv_cleanup {q : SessionQueue} (h : Inv q) : Inv (cleanup q) := by
  refine ⟨List.Pairwise.sublist (cleanup_queue_sublist q) h.1, ?_⟩
  intro x hx
  rw [cleanup_nextSeq]
  exact h.2 x ((cleanup_queue_sublist q).subset hx)

theorem inv_applyQOp (q : SessionQueue) (op : QOp) (h : Inv q) :
    Inv (applyQOp q op) := by
  obtain ⟨hpw, hseq⟩ := h
  cases op with
  | add config priority now =>
      show Inv (add q config priority now).2
      unfold add
      dsimp only
      apply inv_cleanup
      constructor
      · dsimp only
        rw [insertionSort_append_single q.queue _ hpw]
        exact pairwise_stableInsert _ q.queue hpw hseq
      · intro x hx
        dsimp only at hx ⊢
        rw [insertionSort_append_single q.queue _ hpw] at hx
        rcases (mem_stableInsert _ x q.queue).mp hx with rfl | hx'
        · show q.nextSeq < q.nextSeq + 1
          omega
        · have := hseq x hx'
          omega
  | remove id =>
      show Inv (removeId q id)
      unfold removeId
      refine ⟨List.Pairwise.sublist (List.eraseP_sublist _) hpw, ?_⟩
      intro x hx
      exact hseq x ((List.eraseP_sublist _).subset hx)
  | markProcessing id =>
      show Inv (markProcessing q id)
      unfold markProcessing
      refine ⟨?_, ?_⟩
      · dsimp only
        refine pairwise_updateFirst _ _ (fun x => ?_) _ hpw
        rfl
      intro x hx
      dsimp only at hx ⊢
      rcases mem_updateFirst hx with h' | ⟨y, hy, rfl⟩
      · exact hseq x h'
      · exact hseq y hy
  | markComplete id sid now =>
      show Inv (markComplete q id sid now)
      unfold markComplete
      apply inv_cleanup
      refine ⟨?_, ?_⟩
      · dsimp only
        refine pairwise_updateFirst _ _ (fun x => ?_) _ hpw
        rfl
      intro x hx
      dsimp only at hx ⊢
      rcases mem_updateFirst hx with h' | ⟨y, hy, rfl⟩
      · exact hseq x h'
      · exact hseq y hy
  | markFailed id err now =>
      show Inv (markFailed q id err now)
      unfold markFailed
      apply inv_cleanup
      refine ⟨?_, ?_⟩
      · dsimp only
        refine pairwise_updateFirst _ _ (fun x => ?_) _ hpw
        rfl
      intro x hx
      dsimp only at hx ⊢
      rcases mem_updateFirst hx with h' | ⟨y, hy, rfl⟩
      · exact hseq x h'
      · exact hseq y hy
  | clear =>
      show Inv (clearPending q)
      unfold clearPending
      refine ⟨List.Pairwise.sublist (List.filter_sublist _) hpw, ?_⟩
      intro x hx
      exact hseq x ((List.filter_sublist _).subset hx)

theorem reachable_inv {q : SessionQueue} (h : Reachable q) : Inv q := by
  induction h with
  | empty m => exact ⟨List.Pairwise.nil, by simp [emptyQ]⟩
  | step op hq ih => exact inv_applyQOp _ op ih

theorem find?_pending_spec (l : List QItem) (hl : l.Pairwise lexLt) (m : QItem)
    (hm : l.find? (fun i => i.status = QStatus.pending) = some m) :
    m.status = QStatus.pending ∧ m ∈ l ∧
      ∀ x ∈ l, x.status = QStatus.pending →
        m.priority < x.priority ∨ (m.priority = x.priority ∧ m.seq ≤ x.seq) := by
  induction l with
  | nil => simp at hm
  | cons z zs ih =>
      have hy : ∀ w ∈ zs, lexLt z w := (List.pairwise_cons.mp hl).1
      have hzs : zs.Pairwise lexLt := (List.pairwise_cons.mp hl).2
      by_cases hz : z.status = QStatus.pending
      · rw [List.find?_cons_of_pos _ (by simpa using hz)] at hm
        obtain rfl : z = m := by simpa using hm
        refine ⟨hz, List.mem_cons_self _ _, ?_⟩
        intro x hx _
        rcases List.mem_cons.mp hx with rfl | hx'
        · exact Or.inr ⟨rfl, le_refl _⟩
        · have := hy x hx'
          simp only [lexLt, keyLt, key] at this
          rcases this with h | ⟨h1, h2⟩
          · exact Or.inl h
          · exact Or.inr ⟨h1, le_of_lt h2⟩
      · rw [List.find?_cons_of_neg _ (by simpa using hz)] at hm
        obtain ⟨hmp, hmem, hmin⟩ := ih hzs hm
        refine ⟨hmp, List.mem_cons_of_mem _ hmem, ?_⟩
        intro x hx hxp
        rcases List.mem_cons.mp hx with rfl | hx'
        · exact absurd hxp hz
        · exact hmin x hx' hxp

theorem lexLt_ne {a b : QItem} (h : lexLt a b) : a ≠ b := by
  intro heq
  subst heq
  simp only [lexLt, keyLt, key] at h
  omega

theorem nodup_of_pairwise_lexLt {l : List QItem} (hl : l.Pairwise lexLt) :
    l.Nodup :=
  hl.imp lexLt_ne

theorem filter_not_mem_take {α : Type} [DecidableEq α] :
    ∀ (l : List α) (k : Nat), l.Nodup →
      l.filter (fun i => decide (i ∉ l.take k)) = l.drop k := by
  intro l
  induction l with
  | nil => intro k _; simp
  | cons x xs ih =>
      intro k hnd
      have hx : x ∉ xs := (List.nodup_cons.mp hnd).1
      have hxs : xs.Nodup := (List.nodup_cons.mp hnd).2
      cases k with
      | zero => simp
      | succ j =>
          have h2 : (x :: xs).drop (j + 1) = xs.drop j := rfl
          rw [h2]
          have h3 : (x :: xs).filter
                (fun i => decide (i ∉ (x :: xs).take (j + 1)))
              = xs.filter (fun i => decide (i ∉ x :: xs.take j)) := by
            rw [show (x :: xs).take (j + 1) = x :: xs.take j from rfl,
              List.filter_cons]
            simp
          rw [h3]
          have h4 : xs.filter (fun i => decide (i ∉ x :: xs.take j))
              = xs.filter (fun i => decide (i ∉ xs.take j)) := by
            refine List.filter_congr ?_
            intro y hy
            have hyx : ¬ y = x := fun h => hx (h ▸ hy)
            simp [hyx]
          rw [h4]
          exact ih j hxs

/-- What `_cleanup` does: the retained terminal items are the *last*
`maxRetained` of the terminal items in queue order (the earliest-positioned
terminal items are removed), and no non-terminal item is touched. -/
theorem cleanup_spec (q : SessionQueue) (hnd : q.queue.Nodup) :
    (cleanup q).queue.filter isTerminal
        = (q.queue.filter isTerminal).drop
            ((q.queue.filter isTerminal).length - q.maxRetained) ∧
    ∀ x ∈ q.queue, isTerminal x = false → x ∈ (cleanup q).queue := by
  unfold cleanup
  dsimp only
  split_ifs with h
  · constructor
    · have hcomm : ∀ (P T : QItem → Bool) (l : List QItem),
          (l.filter P).filter T = (l.filter T).filter P := by
        intro P T l
        rw [List.filter_filter, List.filter_filter]
        exact List.filter_congr (fun x _ => by rw [Bool.and_comm])
      rw [hcomm]
      exact filter_not_mem_take (q.queue.filter isTerminal) _ (hnd.filter _)
    · intro x hx hxt
      refine List.mem_filter.mpr ⟨hx, ?_⟩
      simp only [decide_eq_true_eq]
      intro hmem
      have hterm := List.of_mem_filter (List.take_subset _ _ hmem)
      rw [hxt] at hterm
      exact absurd hterm (by simp)
  · constructor
    · have h0 : (q.queue.filter isTerminal).length - q.maxRetained = 0 := by
        omega
      rw [h0, List.drop_zero]
    · intro x hx _
      exact hx

/-- When an item reached a terminal state (the code's
`completedAt`/`failedAt`). -/
def terminalAt (i : QItem) : Option Int :=
  match i.status with
  | QStatus.completed => i.completedAt
  | QStatus.failed => i.failedAt
  | _ => none

/-- Claim C6's removal policy as stated: whenever a `markComplete` drops a
terminal item, every dropped item reached its terminal state no later than
every retained terminal item (the "oldest terminal items are removed
first"). -/
def OldestTerminalFirst : Prop :=
  ∀ (q : SessionQueue), Reachable q → ∀ (id : Nat) (sid : String) (now : Int),
    ∀ x y : QItem, x ∈ completeUpd id sid now q.queue →
      x ∉ (markComplete q id sid now).queue →
      y ∈ (markComplete q id sid now).queue →
      isTerminal y = true →
      ∀ tx ty : Int, terminalAt x = some tx → terminalAt y = some ty → tx ≤ ty

/-- A reachable queue with `maxRetained = 1`: add item `A` (priority 9,
seq 0), add item `B` (priority 1, seq 1) — the sort puts `B` first — then
complete `A` at time 10. -/
def cexQueue : SessionQueue :=
  applyQOp
    (applyQOp (applyQOp (emptyQ 1) (QOp.add "A" 9 0)) (QOp.add "B" 1 1))
    (QOp.markComplete 0 "sA" 10)

/-- Item `B` as it stands after being completed at time 20. -/
def cexItemB : QItem :=
  { seq := 1
    config := "B"
    priority := 1
    addedAt := 1
    status := QStatus.completed
    sessionId := some "sB"
    error := none
    completedAt := some 20
    failedAt := none }

/-- Item `A` as it stands after being completed at time 10. -/
def cexItemA : QItem :=
  { seq := 0
    config := "A"
    priority := 9
    addedAt := 0
    status := QStatus.completed
    sessionId := some "sA"
    error := none
    completedAt := some 10
    failedAt := none }

end SessionQueue

open SessionQueue in
/-- **C5.** For every reachable queue state, `getNext()` returns a pending
item with the lowest numeric priority value among all pending items, ties
broken by insertion order (lowest sequence number), and returns `none` when
no pending item exists; concretely, after enqueuing items with priorities
`[5, 1, 3]` the priority-1 item is returned first. -/
theorem sessionQueue_getNext_lowest_priority (q : SessionQueue)
    (hr : Reachable q) :
    (getNext q = none → ∀ x ∈ q.queue, ¬ x.status = QStatus.pending) ∧
    (∀ m, getNext q = some m →
      m.status = QStatus.pending ∧ m ∈ q.queue ∧
      ∀ x ∈ q.queue, x.status = QStatus.pending →
        m.priority < x.priority ∨ (m.priority = x.priority ∧ m.seq ≤ x.seq)) ∧
    (Option.map (fun i => i.priority)
        (getNext (add (add (add (emptyQ 100) "a" 5 0).2 "b" 1 1).2 "c" 3 2).2)
      = some 1) := by
  refine ⟨?_, ?_, by decide⟩
  · intro h x hx
    have := List.find?_eq_none.mp h x hx
    simpa using this
  · intro m hm
    exact find?_pending_spec q.queue (reachable_inv hr).1 m hm

/-- Witness for `sessionQueue_getNext_lowest_priority` at the empty queue. -/
theorem sessionQueue_getNext_lowest_priority_witness :
    (SessionQueue.getNext (SessionQueue.emptyQ 100) = none →
      ∀ x ∈ (SessionQueue.emptyQ 100).queue, ¬ x.status = QStatus.pending) ∧
    (∀ m, SessionQueue.getNext (SessionQueue.emptyQ 100) = some m →
      m.status = QStatus.pending ∧ m ∈ (SessionQueue.emptyQ 100).queue ∧
      ∀ x ∈ (SessionQueue.emptyQ 100).queue, x.status = QStatus.pending →
        m.priority < x.priority ∨ (m.priority = x.priority ∧ m.seq ≤ x.seq)) ∧
    (Option.map (fun i => i.priority)
        (SessionQueue.getNext
          (SessionQueue.add
            (SessionQueue.add
              (SessionQueue.add (SessionQueue.emptyQ 100) "a" 5 0).2
              "b" 1 1).2
            "c" 3 2).2)
      = some 1) :=
  sessionQueue_getNext_lowest_priority (SessionQueue.emptyQ 100)
    (SessionQueue.Reachable.empty 100)

open SessionQueue in
/-- **C6 counterexample.** "Oldest terminal items are removed first" fails:
with `maxRetained = 1`, add `A` (priority 9), add `B` (priority 1) — the
priority sort places `B` before `A` — complete `A` at time 10, then complete
`B` at time 20. The cleanup removes the terminal item *earliest in queue
order*, which is `B` (completed at 20), and retains `A` (completed at 10):
the item removed reached its terminal state *later* than the one kept. -/
theorem sessionQueue_cleanup_not_oldest_first : ¬ OldestTerminalFirst := by
  intro h
  have hr : Reachable cexQueue :=
    Reachable.step (QOp.markComplete 0 "sA" 10)
      (Reachable.step (QOp.add "B" 1 1)
        (Reachable.step (QOp.add "A" 9 0) (Reachable.empty 1)))
  have hx : cexItemB ∈ completeUpd 1 "sB" 20 cexQueue.queue := by decide
  have hx2 : cexItemB ∉ (markComplete cexQueue 1 "sB" 20).queue := by decide
  have hy : cexItemA ∈ (markComplete cexQueue 1 "sB" 20).queue := by decide
  have hyt : isTerminal cexItemA = true := by decide
  have hcl := h cexQueue hr 1 "sB" 20 cexItemB cexItemA hx hx2 hy hyt
    20 10 (by decide) (by decide)
  exact absurd hcl (by decide)

open SessionQueue in
/-- **C6 (amended).** After every `markComplete` or `markFailed`, at most
`maxRetained` terminal (completed/failed) items remain; the terminal items
removed are those occupying the *earliest positions in the priority-sorted
queue order* (the retained ones are the last `maxRetained` terminal items in
queue order) — which coincides with "oldest first" only when terminal states
were reached in queue order; and no pending or processing item is ever
removed by this cleanup. -/
theorem sessionQueue_cleanup_caps (q : SessionQueue) (hr : Reachable q)
    (id : Nat) (sid err : String) (now : Int) :
    (((markComplete q id sid now).queue.filter isTerminal).length
        ≤ q.maxRetained ∧
      (markComplete q id sid now).queue.filter isTerminal
        = ((completeUpd id sid now q.queue).filter isTerminal).drop
            (((completeUpd id sid now q.queue).filter isTerminal).length
              - q.maxRetained) ∧
      ∀ x ∈ completeUpd id sid now q.queue,
        (x.status = QStatus.pending ∨ x.status = QStatus.processing) →
          x ∈ (markComplete q id sid now).queue) ∧
    (((markFailed q id err now).queue.filter isTerminal).length
        ≤ q.maxRetained ∧
      (markFailed q id err now).queue.filter isTerminal
        = ((failUpd id err now q.queue).filter isTerminal).drop
            (((failUpd id err now q.queue).filter isTerminal).length
              - q.maxRetained) ∧
      ∀ x ∈ failUpd id err now q.queue,
        (x.status = QStatus.pending ∨ x.status = QStatus.processing) →
          x ∈ (markFailed q id err now).queue) := by
  have hpw := (reachable_inv hr).1
  constructor
  · have hnd : (completeUpd id sid now q.queue).Nodup := by
      apply nodup_of_pairwise_lexLt
      unfold completeUpd
      refine pairwise_updateFirst _ _ (fun x => ?_) _ hpw
      rfl
    have hspec :=
      cleanup_spec { q with queue := completeUpd id sid now q.queue } hnd
    refine ⟨?_, hspec.1, ?_⟩
    · show ((cleanup { q with queue := completeUpd id sid now q.queue }).queue.filter
          isTerminal).length ≤ q.maxRetained
      rw [hspec.1, List.length_drop]
      dsimp only
      omega
    · intro x hx hps
      have hxt : isTerminal x = false := by
        rcases hps with h | h <;> simp [isTerminal, h]
      exact hspec.2 x hx hxt
  · have hnd : (failUpd id err now q.queue).Nodup := by
      apply nodup_of_pairwise_lexLt
      unfold failUpd
      refine pairwise_updateFirst _ _ (fun x => ?_) _ hpw
      rfl
    have hspec :=
      cleanup_spec { q with queue := failUpd id err now q.queue } hnd
    refine ⟨?_, hspec.1, ?_⟩
    · show ((cleanup { q with queue := failUpd id err now q.queue }).queue.filter
          isTerminal).length ≤ q.maxRetained
      rw [hspec.1, List.length_drop]
      dsimp only
      omega
    · intro x hx hps
      have hxt : isTerminal x = false := by
        rcases hps with h | h <;> simp [isTerminal, h]
      exact hspec.2 x hx hxt

/-- Witness for `sessionQueue_cleanup_caps` at the empty queue. -/
theorem sessionQueue_cleanup_caps_witness :
    (((SessionQueue.markComplete (SessionQueue.emptyQ 1) 0 "s" 5).queue.filter
          SessionQueue.isTerminal).length ≤ (SessionQueue.emptyQ 1).maxRetained ∧
      (SessionQueue.markComplete (SessionQueue.emptyQ 1) 0 "s" 5).queue.filter
          SessionQueue.isTerminal
        = ((SessionQueue.completeUpd 0 "s" 5
              (SessionQueue.emptyQ 1).queue).filter SessionQueue.isTerminal).drop
            (((SessionQueue.completeUpd 0 "s" 5
                (SessionQueue.emptyQ 1).queue).filter
                  SessionQueue.isTerminal).length
              - (SessionQueue.emptyQ 1).maxRetained) ∧
      ∀ x ∈ SessionQueue.completeUpd 0 "s" 5 (SessionQueue.emptyQ 1).queue,
        (x.status = QStatus.pending ∨ x.status = QStatus.processing) →
          x ∈ (SessionQueue.markComplete (SessionQueue.emptyQ 1) 0 "s" 5).queue) ∧
    (((SessionQueue.markFailed (SessionQueue.emptyQ 1) 0 "e" 5).queue.filter
          SessionQueue.isTerminal).length ≤ (SessionQueue.emptyQ 1).maxRetained ∧
      (SessionQueue.markFailed (SessionQueue.emptyQ 1) 0 "e" 5).queue.filter
          SessionQueue.isTerminal
        = ((SessionQueue.failUpd 0 "e" 5
              (SessionQueue.emptyQ 1).queue).filter SessionQueue.isTerminal).drop
            (((SessionQueue.failUpd 0 "e" 5
                (SessionQueue.emptyQ 1).queue).filter
                  SessionQueue.isTerminal).length
              - (SessionQueue.emptyQ 1).maxRetained) ∧
      ∀ x ∈ SessionQueue.failUpd 0 "e" 5 (SessionQueue.emptyQ 1).queue,
        (x.status = QStatus.pending ∨ x.status = QStatus.processing) →
          x ∈ (SessionQueue.markFailed (SessionQueue.emptyQ 1) 0 "e" 5).queue) :=
  sessionQueue_cleanup_caps (SessionQueue.emptyQ 1)
    (SessionQueue.Reachable.empty 1) 0 "s" "e" 5

/-- Witness for `julesRequest_circuitOpen_retry` with the breaker open at
state `⟨5, 0⟩`, checks at time 1000, `maxRetries = 2` (as in
`cancelSession`). -/
theorem julesRequest_circuitOpen_retry_witness :
    1 ≤ 2 ∧
    ((∀ i, 1 ≤ i → i ≤ 2 →
        julesGate (⟨5, 0⟩ : CircuitBreaker) 1000 (Except.ok ())
          = .error circuitOpenError) ∧
      retryWithBackoff
          (fun _ => julesGate (⟨5, 0⟩ : CircuitBreaker) 1000 (Except.ok ())) 2
        = (some (.error circuitOpenError), 2, 2 - 1)) :=
  ⟨by decide,
   julesRequest_circuitOpen_retry (⟨5, 0⟩ : CircuitBreaker) 2
     (fun _ => 1000) (fun _ => Except.ok ()) (by decide)
     (fun i h1 h2 =>
       (by decide : (CircuitBreaker.isOpen (⟨5, 0⟩ : CircuitBreaker) 1000).1 = true))⟩

/-! ## Per-IP sliding-window rate limit (`src/index.js` lines 159-198)

```js
const rateLimitStore = new Map();
const RATE_LIMIT_WINDOW = 60 * 1000; // 1 minute
const RATE_LIMIT_MAX = 100; // 100 requests per minute

app.use('/mcp/', (req, res, next) => {
  const ip = req.ip || req.connection.remoteAddress;
  const now = Date.now();
  const windowStart = now - RATE_LIMIT_WINDOW;
  let requests = rateLimitStore.get(ip);
  if (!requests) { requests = []; rateLimitStore.set(ip, requests); }
  // Remove old requests (array is sorted by time)
  let removeCount = 0;
  while (removeCount < requests.length && requests[removeCount] <= windowStart) {
    removeCount++;
  }
  if (removeCount > 0) { requests.splice(0, removeCount); }
  requests.push(now);
  if (requests.length > RATE_LIMIT_MAX) {
    return res.status(429).json({ error: 'Too many requests',
      retryAfter: Math.ceil(RATE_LIMIT_WINDOW / 1000), hint: ... });
  }
  res.setHeader('X-RateLimit-Limit', RATE_LIMIT_MAX);
  res.setHeader('X-RateLimit-Remaining', RATE_LIMIT_MAX - requests.length);
  next();
});
```
Note the order of operations: the prune and the `push(now)` happen *before*
the limit check, so a rejected request still appends its timestamp to the
stored per-IP array. -/

def RATE_LIMIT_WINDOW : Int := 60 * 1000

def RATE_LIMIT_MAX : Nat := 100

/-- The middleware's outcome for one request: `next()` with the two
rate-limit headers, or a 429 with `retryAfter` (seconds). -/
inductive RLResponse where
  | admitted (limit remaining : Int)
  | rejected (retryAfter : Int)
  deriving Repr, DecidableEq

/-- One request from one IP through the middleware at time `now`, given the
stored timestamp array: returns the array as stored afterwards and the
response. `Math.ceil(RATE_LIMIT_WINDOW / 1000)` is the exact division 60. -/
def rateLimitStep (requests : List Int) (now : Int) :
    List Int × RLResponse :=
  let windowStart := now - RATE_LIMIT_WINDOW
  let pruned := requests.dropWhile (fun t => decide (t ≤ windowStart))
  let updated := pruned ++ [now]
  if RATE_LIMIT_MAX < updated.length then
    (updated, .rejected (RATE_LIMIT_WINDOW / 1000))
  else
    (updated,
     .admitted (RATE_LIMIT_MAX : Int) ((RATE_LIMIT_MAX : Int) - updated.length))

/-- Process a whole sequence of request times for one IP, starting from the
empty store; returns the final stored array and the log of
(time, response) pairs. -/
def rateLimitTrace (ts : List Int) : List Int × List (Int × RLResponse) :=
  ts.foldl
    (fun acc t =>
      ((rateLimitStep acc.1 t).1, acc.2 ++ [(t, (rateLimitStep acc.1 t).2)]))
    ([], [])

def isAdmitted : RLResponse → Bool
  | .admitted _ _ => true
  | .rejected _ => false

/-- Claim C4's frame property as stated: a rejection leaves the stored
per-caller record exactly as it was before the request. -/
def RejectionLeavesStateUnchanged : Prop :=
  ∀ (requests : List Int) (now ra : Int),
    (rateLimitStep requests now).2 = .rejected ra →
    (rateLimitStep requests now).1 = requests

/-- **C4 counterexample.** A rejected request mutates the stored record:
with 100 timestamps at time 50000 stored and a new request at 50001, the
middleware appends 50001 (the push happens before the limit check) and only
then rejects; the stored array afterwards has 101 entries, not the original
100. -/
theorem rateLimit_rejection_mutates : ¬ RejectionLeavesStateUnchanged := by
  intro h
  have happ := h (List.replicate 100 50000) 50001 60 (by decide)
  have hlen : (rateLimitStep (List.replicate 100 50000) 50001).1.length = 101 := by
    decide
  rw [happ] at hlen
  simp at hlen

/-- **C4 (amended).** On rejection the middleware *does* mutate the
per-caller record: the stored array afterwards is the pruned window plus the
rejected request's own timestamp (so rejected requests consume window
budget), and it necessarily holds more than `RATE_LIMIT_MAX` entries. The
429 response reports the fixed `retryAfter = 60` seconds, and waiting that
long does guarantee admission: a request at any time ≥ `now + 60000` (all
stored timestamps being ≤ `now`) is admitted with `remaining = 99`. -/
theorem dropWhile_eq_nil_of_all {l : List Int} {p : Int → Bool}
    (h : ∀ t ∈ l, p t = true) : l.dropWhile p = [] := by
  induction l with
  | nil => rfl
  | cons x xs ih =>
      rw [List.dropWhile_cons_of_pos (h x (List.mem_cons_self x xs))]
      exact ih (fun t ht => h t (List.mem_cons_of_mem _ ht))

/-- When every stored timestamp is a full window old, the next request is
admitted with 99 remaining. -/
theorem rateLimitStep_all_old (store : List Int) (later : Int)
    (hall : ∀ t ∈ store, t ≤ later - RATE_LIMIT_WINDOW) :
    rateLimitStep store later = ([later], .admitted 100 99) := by
  have hdrop : store.dropWhile (fun t => decide (t ≤ later - RATE_LIMIT_WINDOW))
      = [] :=
    dropWhile_eq_nil_of_all (fun t ht => by
      simpa using hall t ht)
  unfold rateLimitStep
  dsimp only
  rw [hdrop]
  have hone : ¬ RATE_LIMIT_MAX < (([] : List Int) ++ [later]).length := by
    simp [RATE_LIMIT_MAX]
  rw [if_neg hone]
  simp [RATE_LIMIT_MAX]

theorem rateLimit_rejection_behavior (requests : List Int) (now ra : Int)
    (hrej : (rateLimitStep requests now).2 = .rejected ra) :
    (rateLimitStep requests now).1
        = requests.dropWhile (fun t => decide (t ≤ now - RATE_LIMIT_WINDOW))
            ++ [now] ∧
    ra = 60 ∧
    RATE_LIMIT_MAX < (rateLimitStep requests now).1.length ∧
    ∀ later : Int, now + RATE_LIMIT_WINDOW ≤ later →
      (∀ t ∈ (rateLimitStep requests now).1, t ≤ now) →
      (rateLimitStep ((rateLimitStep requests now).1) later).2
        = .admitted 100 99 := by
  have hsplit : rateLimitStep requests now
      = if RATE_LIMIT_MAX <
            (requests.dropWhile (fun t => decide (t ≤ now - RATE_LIMIT_WINDOW))
              ++ [now]).length
        then (requests.dropWhile (fun t => decide (t ≤ now - RATE_LIMIT_WINDOW))
                ++ [now],
              RLResponse.rejected (RATE_LIMIT_WINDOW / 1000))
        else (requests.dropWhile (fun t => decide (t ≤ now - RATE_LIMIT_WINDOW))
                ++ [now],
              RLResponse.admitted (RATE_LIMIT_MAX : Int)
                ((RATE_LIMIT_MAX : Int) -
                  (requests.dropWhile
                      (fun t => decide (t ≤ now - RATE_LIMIT_WINDOW))
                    ++ [now]).length)) := rfl
  have h1 : (rateLimitStep requests now).1
      = requests.dropWhile (fun t => decide (t ≤ now - RATE_LIMIT_WINDOW))
          ++ [now] := by
    rw [hsplit]
    split_ifs <;> rfl
  have h2 := hrej
  rw [hsplit] at h2
  by_cases hlen : RATE_LIMIT_MAX <
      (requests.dropWhile (fun t => decide (t ≤ now - RATE_LIMIT_WINDOW))
        ++ [now]).length
  · rw [if_pos hlen] at h2
    dsimp only at h2
    injection h2 with h3
    refine ⟨h1, by rw [← h3]; decide, by rw [h1]; exact hlen, ?_⟩
    intro later hlater hpast
    have hw : RATE_LIMIT_WINDOW = 60000 := rfl
    have hall : ∀ t ∈ (rateLimitStep requests now).1,
        t ≤ later - RATE_LIMIT_WINDOW := by
      intro t ht
      have := hpast t ht
      rw [hw] at hlater ⊢
      omega
    rw [rateLimitStep_all_old _ later hall]
  · rw [if_neg hlen] at h2
    dsimp only at h2
    exact absurd h2 (by simp)

/-- Witness for `rateLimit_rejection_behavior`: 100 stored timestamps at
time 50000, a new request at 50001. -/
theorem rateLimit_rejection_behavior_witness :
    (rateLimitStep (List.replicate 100 50000) 50001).1
        = (List.replicate 100 50000).dropWhile
            (fun t => decide (t ≤ 50001 - RATE_LIMIT_WINDOW)) ++ [50001] ∧
    (60 : Int) = 60 ∧
    RATE_LIMIT_MAX < (rateLimitStep (List.replicate 100 50000) 50001).1.length ∧
    (∀ later : Int, 50001 + RATE_LIMIT_WINDOW ≤ later →
      (∀ t ∈ (rateLimitStep (List.replicate 100 50000) 50001).1, t ≤ 50001) →
      (rateLimitStep ((rateLimitStep (List.replicate 100 50000) 50001).1)
          later).2
        = .admitted 100 99) :=
  rateLimit_rejection_behavior (List.replicate 100 50000) 50001 60 (by decide)

/-- The response of one step, phrased against the stored array after the
step (which always equals pruned-window + the new timestamp). -/
theorem rateLimitStep_snd (S : List Int) (t : Int) :
    (rateLimitStep S t).2
      = if RATE_LIMIT_MAX < (rateLimitStep S t).1.length
        then .rejected (RATE_LIMIT_WINDOW / 1000)
        else .admitted (RATE_LIMIT_MAX : Int)
            ((RATE_LIMIT_MAX : Int) - (rateLimitStep S t).1.length) := by
  unfold rateLimitStep
  dsimp only
  split_ifs <;> rfl

theorem rateLimitTrace_snoc (ts : List Int) (t : Int) :
    rateLimitTrace (ts ++ [t])
      = ((rateLimitStep (rateLimitTrace ts).1 t).1,
         (rateLimitTrace ts).2
           ++ [(t, (rateLimitStep (rateLimitTrace ts).1 t).2)]) := by
  unfold rateLimitTrace
  rw [List.foldl_append]
  rfl

theorem rateLimitTrace_times (ts : List Int) :
    (rateLimitTrace ts).2.map Prod.fst = ts := by
  induction ts using List.reverseRecOn with
  | nil => rfl
  | append_singleton ts' t ih =>
      rw [rateLimitTrace_snoc]
      dsimp only
      rw [List.map_append, ih]
      rfl

/-- On a time-sorted array, the middleware's prune-from-the-front loop keeps
exactly the timestamps strictly inside the window. -/
theorem sorted_dropWhile_le (w : Int) :
    ∀ l : List Int, l.Sorted (· ≤ ·) →
      l.dropWhile (fun x => decide (x ≤ w))
        = l.filter (fun x => decide (w < x)) := by
  intro l
  induction l with
  | nil => intro _; rfl
  | cons x xs ih =>
      intro hs
      have hx : ∀ z ∈ xs, x ≤ z := (List.pairwise_cons.mp hs).1
      have hxs := (List.pairwise_cons.mp hs).2
      by_cases hxw : x ≤ w
      · rw [List.dropWhile_cons_of_pos (by simpa using hxw),
          List.filter_cons_of_neg (by simp only [decide_eq_true_eq]; omega)]
        exact ih hxs
      · rw [List.dropWhile_cons_of_neg (by simpa using hxw),
          List.filter_cons_of_pos (by simp only [decide_eq_true_eq]; omega)]
        congr 1
        symm
        refine List.filter_eq_self.mpr ?_
        intro z hz
        have := hx z hz
        simp only [decide_eq_true_eq]
        omega

/-- The stored array after a time-sorted trace ending at `t` is exactly the
trace's timestamps strictly inside the window ending at `t`. -/
theorem rateLimitTrace_state :
    ∀ (ts : List Int) (t : Int), (ts ++ [t]).Sorted (· ≤ ·) →
      (rateLimitTrace (ts ++ [t])).1
        = (ts ++ [t]).filter (fun x => decide (t - RATE_LIMIT_WINDOW < x)) := by
  intro ts
  induction ts using List.reverseRecOn with
  | nil =>
      intro t _
      have ht : t - RATE_LIMIT_WINDOW < t := by
        rw [show RATE_LIMIT_WINDOW = 60000 from rfl]
        omega
      rw [rateLimitTrace_snoc]
      dsimp only
      have hstep : (rateLimitStep (rateLimitTrace ([] : List Int)).1 t).1
          = [t] := by
        unfold rateLimitTrace rateLimitStep
        dsimp only
        split_ifs <;> rfl
      rw [hstep]
      simp [List.filter_cons, ht]
  | append_singleton ts' u ih =>
      intro t hs
      rw [List.Sorted, List.pairwise_append] at hs
      obtain ⟨hs1, _, hs3⟩ := hs
      have hut : u ≤ t := hs3 u (by simp) t (by simp)
      rw [rateLimitTrace_snoc (ts' ++ [u]) t]
      dsimp only
      rw [ih u hs1]
      have hsortS : ((ts' ++ [u]).filter
            (fun x => decide (u - RATE_LIMIT_WINDOW < x))).Sorted (· ≤ ·) :=
        hs1.filter _
      have hstep1 : (rateLimitStep ((ts' ++ [u]).filter
            (fun x => decide (u - RATE_LIMIT_WINDOW < x))) t).1
          = ((ts' ++ [u]).filter
                (fun x => decide (u - RATE_LIMIT_WINDOW < x))).dropWhile
              (fun x => decide (x ≤ t - RATE_LIMIT_WINDOW)) ++ [t] := by
        unfold rateLimitStep
        dsimp only
        split_ifs <;> rfl
      rw [hstep1, sorted_dropWhile_le _ _ hsortS, List.filter_filter]
      have hW : RATE_LIMIT_WINDOW = 60000 := rfl
      have hcong : ∀ (l : List Int),
          l.filter (fun x => decide (t - RATE_LIMIT_WINDOW < x)
              && decide (u - RATE_LIMIT_WINDOW < x))
            = l.filter (fun x => decide (t - RATE_LIMIT_WINDOW < x)) := by
        intro l
        refine List.filter_congr ?_
        intro x _
        by_cases hx : t - RATE_LIMIT_WINDOW < x
        · have hux : u - RATE_LIMIT_WINDOW < x := by
            rw [hW] at hx ⊢
            omega
          simp [hx, hux]
        · simp [hx]
      rw [hcong, List.filter_append]
      have ht : t - RATE_LIMIT_WINDOW < t := by
        rw [hW]
        omega
      simp [List.filter_cons, ht]
      try (split_ifs <;> rfl)

theorem length_filter_mono {α : Type} (l : List α) (p q : α → Bool)
    (h : ∀ x ∈ l, p x = true → q x = true) :
    (l.filter p).length ≤ (l.filter q).length := by
  induction l with
  | nil => simp
  | cons x xs ih =>
      have ih' := ih (fun z hz => h z (List.mem_cons_of_mem _ hz))
      by_cases hp : p x = true
      · rw [List.filter_cons_of_pos hp,
          List.filter_cons_of_pos (h x (List.mem_cons_self _ _) hp)]
        simpa using ih'
      · rw [List.filter_cons_of_neg (by simpa using hp)]
        by_cases hq : q x = true
        · rw [List.filter_cons_of_pos hq]
          exact le_trans ih' (by simp)
        · rw [List.filter_cons_of_neg (by simpa using hq)]
          exact ih'

theorem length_filter_fst (l : List (Int × RLResponse)) (q : Int → Bool) :
    (l.filter (fun p => q p.1)).length = ((l.map Prod.fst).filter q).length := by
  induction l with
  | nil => rfl
  | cons x xs ih =>
      rw [List.map_cons]
      by_cases hq : q x.1 = true <;> simp [List.filter_cons, hq, ih]

/-- Core of the sliding-window bound: over any time-sorted request trace, at
most `RATE_LIMIT_MAX` requests whose timestamps fall in `(a, a + 60s]` are
admitted. -/
theorem window_count_aux (a : Int) :
    ∀ ts : List Int, ts.Sorted (· ≤ ·) →
      ((rateLimitTrace ts).2.filter
          (fun p => isAdmitted p.2 && decide (a < p.1)
            && decide (p.1 ≤ a + RATE_LIMIT_WINDOW))).length
        ≤ RATE_LIMIT_MAX := by
  intro ts
  induction ts using List.reverseRecOn with
  | nil =>
      intro _
      simp [rateLimitTrace, RATE_LIMIT_MAX]
  | append_singleton ts' t ih =>
      intro hs
      have hs' := hs
      rw [List.Sorted, List.pairwise_append] at hs'
      obtain ⟨hs1, _, hs3⟩ := hs'
      have ihv := ih hs1
      rw [rateLimitTrace_snoc]
      dsimp only
      rw [List.filter_append, List.length_append]
      by_cases hlast : (isAdmitted (rateLimitStep (rateLimitTrace ts').1 t).2
          && decide (a < t) && decide (t ≤ a + RATE_LIMIT_WINDOW)) = true
      · have hone : (List.filter
              (fun p => isAdmitted p.2 && decide (a < p.1)
                && decide (p.1 ≤ a + RATE_LIMIT_WINDOW))
              [(t, (rateLimitStep (rateLimitTrace ts').1 t).2)]).length = 1 := by
          simp [List.filter_cons, hlast]
        rw [hone]
        have hlast' := hlast
        simp only [Bool.and_eq_true] at hlast'
        obtain ⟨⟨hadm, h2⟩, h3⟩ := hlast'
        have hat : a < t := by simpa using h2
        have hta : t ≤ a + RATE_LIMIT_WINDOW := by simpa using h3
        have hupd : (rateLimitStep (rateLimitTrace ts').1 t).1
            = (ts' ++ [t]).filter
                (fun x => decide (t - RATE_LIMIT_WINDOW < x)) := by
          have hst := rateLimitTrace_state ts' t hs
          rw [rateLimitTrace_snoc] at hst
          exact hst
        have hlen : ¬ RATE_LIMIT_MAX
            < (rateLimitStep (rateLimitTrace ts').1 t).1.length := by
          intro hcon
          rw [rateLimitStep_snd, if_pos hcon] at hadm
          simp [isAdmitted] at hadm
        have hW : RATE_LIMIT_WINDOW = 60000 := rfl
        have hsplitF : (ts' ++ [t]).filter
              (fun x => decide (t - RATE_LIMIT_WINDOW < x))
            = ts'.filter (fun x => decide (t - RATE_LIMIT_WINDOW < x)) ++ [t] := by
          rw [List.filter_append]
          congr 1
          have ht : t - RATE_LIMIT_WINDOW < t := by
            rw [hW]
            omega
          simp [List.filter_cons, ht]
        have h99 : (ts'.filter
              (fun x => decide (t - RATE_LIMIT_WINDOW < x))).length
            ≤ RATE_LIMIT_MAX - 1 := by
          rw [hupd, hsplitF] at hlen
          simp only [List.length_append, List.length_cons,
            List.length_nil] at hlen
          omega
        have hchain : ((rateLimitTrace ts').2.filter
              (fun p => isAdmitted p.2 && decide (a < p.1)
                && decide (p.1 ≤ a + RATE_LIMIT_WINDOW))).length
            ≤ (ts'.filter (fun x => decide (t - RATE_LIMIT_WINDOW < x))).length := by
          have hm := length_filter_mono ((rateLimitTrace ts').2)
            (fun p => isAdmitted p.2 && decide (a < p.1)
              && decide (p.1 ≤ a + RATE_LIMIT_WINDOW))
            (fun p => decide (t - RATE_LIMIT_WINDOW < p.1))
            (by
              intro p _ hPp
              simp only [Bool.and_eq_true] at hPp
              obtain ⟨⟨_, h2'⟩, h3'⟩ := hPp
              have hap : a < p.1 := by simpa using h2'
              simp only [decide_eq_true_eq]
              rw [hW] at hta ⊢
              omega)
          have hfst := length_filter_fst (rateLimitTrace ts').2
            (fun x => decide (t - RATE_LIMIT_WINDOW < x))
          rw [rateLimitTrace_times] at hfst
          exact le_trans hm (le_of_eq hfst)
        have hmax1 : 1 ≤ RATE_LIMIT_MAX := by decide
        omega
      · have hzero : (List.filter
              (fun p => isAdmitted p.2 && decide (a < p.1)
                && decide (p.1 ≤ a + RATE_LIMIT_WINDOW))
              [(t, (rateLimitStep (rateLimitTrace ts').1 t).2)]).length = 0 := by
          simp [List.filter_cons, hlast]
        rw [hzero]
        simpa using ihv

/-- **C10.** For every client IP: over any (chronologically ordered) request
trace, at most `RATE_LIMIT_MAX = 100` requests whose timestamps fall within
any single 60-second window `(a, a + 60000]` are admitted; every request
beyond the cap receives a 429 whose `retryAfter` is 60, and each admitted
response carries `X-RateLimit-Remaining` = 100 minus the number of requests
currently recorded in the window (the stored array after the push). -/
theorem rateLimit_sliding_window (ts : List Int) (a : Int)
    (hs : ts.Sorted (· ≤ ·)) :
    (∀ (requests : List Int) (now : Int),
      (rateLimitStep requests now).2
        = if RATE_LIMIT_MAX < (rateLimitStep requests now).1.length
          then RLResponse.rejected 60
          else RLResponse.admitted 100
              (100 - ((rateLimitStep requests now).1.length : Int))) ∧
    ((rateLimitTrace ts).2.filter
        (fun p => isAdmitted p.2 && decide (a < p.1)
          && decide (p.1 ≤ a + RATE_LIMIT_WINDOW))).length
      ≤ RATE_LIMIT_MAX := by
  constructor
  · intro requests now
    rw [rateLimitStep_snd]
    norm_num [RATE_LIMIT_MAX, RATE_LIMIT_WINDOW]
  · exact window_count_aux a ts hs

/-- Witness for `rateLimit_sliding_window`: three requests at times 0, 1, 2
and the window anchored at 0. -/
theorem rateLimit_sliding_window_witness :
    (∀ (requests : List Int) (now : Int),
      (rateLimitStep requests now).2
        = if RATE_LIMIT_MAX < (rateLimitStep requests now).1.length
          then RLResponse.rejected 60
          else RLResponse.admitted 100
              (100 - ((rateLimitStep requests now).1.length : Int))) ∧
    ((rateLimitTrace [0, 1, 2]).2.filter
        (fun p => isAdmitted p.2 && decide ((0 : Int) < p.1)
          && decide (p.1 ≤ 0 + RATE_LIMIT_WINDOW))).length
      ≤ RATE_LIMIT_MAX :=
  rateLimit_sliding_window [0, 1, 2] 0 (by decide)

end Orchestration
